import Mathlib

/-!
# Reputation-based proposer election: a shallow embedding

This file embeds `consensus/src/chained_bft/liveness/leader_reputation.rs`
(the reputation-based proposer election engine) in Lean 4 and proves the
spec's testable properties against it.

Machine integers: the Rust code works over `u64` (`Round`, weights, the PRNG
output).  We model `u64` values as `Nat` and make overflow explicit with
`% 2^64` where the code can wrap (the cumulative-weight accumulation in
`get_valid_proposers`); `u64 % 0` panics in Rust, which we model as `none`.

Panics (`assert_eq!`, `unwrap_err` on `Ok`, out-of-bounds indexing, `% 0`)
are modelled by an `Option` result: `none` means the call aborts loudly and
returns nothing.
-/

/-- 2^64, the modulus of `u64` arithmetic. -/
def U64MOD : Nat := 2 ^ 64

/-- Validator identity.  Opaque, comparable, hashable; modelled as `Nat`. -/
abbrev Author := Nat

/-- Consensus round, a `u64` logical clock. -/
abbrev Round := Nat

/-- A committed block record (`NewBlockEvent`): emitted once when a block
commits, with the round, the proposer, the voters and a timestamp. -/
structure NewBlockEvent where
  round : Round
  proposer : Author
  votes : List Author
  timestamp : Nat
  deriving DecidableEq, Repr

/-- Modelled from the spec: `LibraDBTrait::get_events` (the storage
collaborator, not part of the election sources) queried with
`start = u64::max_value()` returns the `limit` most recent events of the
key, most-recent-first.  The store itself is the append-only list of
committed `NewBlockEvent`s in commit (ascending-round) order. -/
def getEventsLatest (store : List NewBlockEvent) (limit : Nat) : List NewBlockEvent :=
  store.reverse.take limit

/-- `LibraDBBackend::get_block_metadata`: over-fetch `window_size + 10`
most-recent events, keep those with `round ≤ target_round`, truncate to
`window_size`, and sort ascending by round (`sort_by` on rounds). -/
def get_block_metadata (store : List NewBlockEvent) (window_size : Nat)
    (target_round : Round) : List NewBlockEvent :=
  let buffer := 10
  let events :=
    ((getEventsLatest store (window_size + buffer)).filter
      (fun e => e.round ≤ target_round)).take window_size
  events.mergeSort (fun a b => a.round ≤ b.round)

/-- Modelled from the spec (the amended window claim): among the
`window_size + 10` most recently committed records, those with
`round ≤ target_round`, truncated to the most recent `window_size`, in
commit (ascending-round) order.  This is the spec-side reference
description of the window; `get_block_metadata` above is the embedding of
the source, and the refinement theorem for the window claim proves the two
agree on every strictly-ascending store. -/
def mostRecentWindow (store : List NewBlockEvent) (window_size : Nat)
    (target_round : Round) : List NewBlockEvent :=
  let recent := store.drop (store.length - (window_size + 10))
  let qual := recent.filter (fun e => e.round ≤ target_round)
  qual.drop (qual.length - window_size)

/-- `ActiveInactiveHeuristic`: configuration of the reference heuristic. -/
structure ActiveInactiveHeuristic where
  active_weight : Nat
  inactive_weight : Nat

/-- The fold in `ActiveInactiveHeuristic::get_weights` building the set of
authors that appear in the history window (each record's proposer plus its
voters). -/
def activeSet (history : List NewBlockEvent) : Finset Author :=
  history.foldl (fun s meta => (insert meta.proposer s) ∪ meta.votes.toFinset) ∅

/-- `ActiveInactiveHeuristic::get_weights`: each candidate gets
`active_weight` if it is in the active set of the history, else
`inactive_weight`, index-aligned with the candidate list. -/
def ActiveInactiveHeuristic.get_weights (h : ActiveInactiveHeuristic)
    (candidates : List Author) (history : List NewBlockEvent) : List Nat :=
  candidates.map (fun author =>
    if author ∈ activeSet history then h.active_weight else h.inactive_weight)

/-- The `LeaderReputation` engine.  The trait objects of the Rust struct
(`backend : Box<dyn MetadataBackend>`, `heuristic : Box<dyn
ReputationHeuristic>`) become function fields; `next` is the pinned PRNG of
`proposer_election.rs`.  Modelled from the spec: `next` (not part of the
given sources) is a fixed pure function from the byte state to a `u64`. -/
structure LeaderReputation where
  proposers : List Author
  backend : Nat → Round → List NewBlockEvent
  window_size : Nat
  heuristic : List Author → List NewBlockEvent → List Nat
  next : List Nat → Nat

/-- `round.to_le_bytes().to_vec()`: the 8 little-endian bytes of a `u64`. -/
def roundBytes (round : Round) : List Nat :=
  (List.range 8).map (fun i => round / 256 ^ i % 256)

/-- Wrapping `u64` addition (`total_weight += *w` in release mode). -/
def wadd (a b : Nat) : Nat := (a + b) % U64MOD

/-- The in-place prefix-sum loop of `get_valid_proposers`: after the loop,
`weights[i]` holds the cumulative sum of the first `i+1` weights. -/
def cumWeights (weights : List Nat) : List Nat :=
  (weights.scanl wadd 0).tail

/-- The final value of `total_weight` after the prefix-sum loop. -/
def totalWeight (weights : List Nat) : Nat :=
  weights.foldl wadd 0

/-- One step of `slice::binary_search_by` on `[left, right)`, with `fuel`
bounding the number of iterations (each iteration strictly shrinks
`right - left`, so `fuel = xs.length` never runs out).  Mirrors Rust's
loop: `mid = left + (right-left)/2`; comparator `Less` moves `left` past
`mid`, `Greater` moves `right` to `mid`, `Equal` returns `Ok(mid)`. -/
def bsLoop (xs : List Nat) (f : Nat → Ordering) :
    Nat → Nat → Nat → Sum Nat Nat
  | 0, left, _ => Sum.inr left
  | fuel + 1, left, right =>
    if left < right then
      let mid := left + (right - left) / 2
      match f (xs.getD mid 0) with
      | Ordering.lt => bsLoop xs f fuel (mid + 1) right
      | Ordering.gt => bsLoop xs f fuel left mid
      | Ordering.eq => Sum.inl mid
    else Sum.inr left

/-- `slice::binary_search_by`: `Sum.inl i` is `Ok(i)` (comparator returned
`Equal` at `i`), `Sum.inr i` is `Err(i)` (the insertion point). -/
def binarySearchBy (xs : List Nat) (f : Nat → Ordering) : Sum Nat Nat :=
  bsLoop xs f xs.length 0 xs.length

/-- The comparator passed to `binary_search_by` in `get_valid_proposers`:
`Less` when the cumulative weight is `≤ chosen_weight`, else `Greater`
(never `Equal`). -/
def selCmp (chosen : Nat) (w : Nat) : Ordering :=
  if w ≤ chosen then Ordering.lt else Ordering.gt

/-- The `target_round` computation of `get_valid_proposers` (GAP = 4,
hardcoded). -/
def targetRound (round : Round) : Round :=
  if round ≥ 4 then round - 4 else 0

/-- The tail of `get_valid_proposers` after the history window is fetched:
heuristic, length assertion, prefix sums, draw, binary search, indexing.
`none` models a panic (`assert_eq!` failure, `% 0`, `unwrap_err` on `Ok`,
or out-of-bounds indexing). -/
def electWithWindow (e : LeaderReputation) (round : Round)
    (sliding_window : List NewBlockEvent) : Option (List Author) :=
  let weights := e.heuristic e.proposers sliding_window
  if weights.length = e.proposers.length then
    let total_weight := totalWeight weights
    if total_weight = 0 then none
    else
      let state := roundBytes round
      let chosen_weight := e.next state % total_weight
      match binarySearchBy (cumWeights weights) (selCmp chosen_weight) with
      | Sum.inl _ => none
      | Sum.inr chosen_index => (e.proposers.get? chosen_index).map (fun a => [a])
  else none

/-- `LeaderReputation::get_valid_proposers`. -/
def getValidProposers (e : LeaderReputation) (round : Round) : Option (List Author) :=
  electWithWindow e round (e.backend e.window_size (targetRound round))

/-- `LeaderReputation::is_valid_proposer`.  Outer `none`: the inner
election panicked; `some none`: the author is not the valid proposer. -/
def isValidProposer (e : LeaderReputation) (author : Author) (round : Round) :
    Option (Option Author) :=
  match getValidProposers e round with
  | none => none
  | some l => if author ∈ l then some (some author) else some none

/-- A consensus `Block<T>`: the election only reads its (optional) author
and its round; `payload` stands for the rest of the block. -/
structure Block (T : Type) where
  author : Option Author
  round : Round
  payload : T
  deriving DecidableEq, Repr

/-- `LeaderReputation::process_proposal`.  `some none`: the proposal is
discarded (authorless, or its author is not the round's valid proposer);
outer `none`: the election panicked. -/
def processProposal {T : Type} (e : LeaderReputation) (proposal : Block T) :
    Option (Option (Block T)) :=
  match proposal.author with
  | none => some none
  | some author =>
    match getValidProposers e proposal.round with
    | none => none
    | some l => if author ∈ l then some (some proposal) else some none

/-- `LeaderReputation::take_backup_proposal`: always `None`. -/
def takeBackupProposal {T : Type} (_e : LeaderReputation) (_round : Round) :
    Option (Block T) :=
  none

/-! ## Concrete instances used by witnesses and counterexamples -/

/-- A store with committed rounds 1..50 (one record per round). -/
def store50 : List NewBlockEvent := (List.range 50).map (fun i => ⟨i + 1, 0, [], 0⟩)

/-- The ten records with rounds 30 down to 21: the pre-sort window the
backend extracts from `store50` for `window_size = 20`,
`target_round = 30`. -/
def win30pre : List NewBlockEvent :=
  [⟨30, 0, [], 0⟩, ⟨29, 0, [], 0⟩, ⟨28, 0, [], 0⟩, ⟨27, 0, [], 0⟩, ⟨26, 0, [], 0⟩,
   ⟨25, 0, [], 0⟩, ⟨24, 0, [], 0⟩, ⟨23, 0, [], 0⟩, ⟨22, 0, [], 0⟩, ⟨21, 0, [], 0⟩]

/-- A small concrete engine: three candidates, empty history, uniform
weights, a fixed draw. -/
def engC1a : LeaderReputation :=
  { proposers := [7, 8, 9]
    backend := fun _ _ => []
    window_size := 10
    heuristic := fun c _ => c.map (fun _ => 1)
    next := fun s => s.sum }

/-- A second engine built independently from the same data as `engC1a`. -/
def engC1b : LeaderReputation :=
  { proposers := [7, 8, 9]
    backend := fun _ _ => []
    window_size := 10
    heuristic := fun c _ => c.map (fun _ => 1)
    next := fun s => s.sum }

/-- An engine whose heuristic violates the length contract (empty weight
vector against one candidate). -/
def engBadLen : LeaderReputation :=
  { proposers := [3]
    backend := fun _ _ => []
    window_size := 2
    heuristic := fun _ _ => []
    next := fun _ => 0 }

/-- An engine whose heuristic returns an all-zero weight vector. -/
def engBadZero : LeaderReputation :=
  { proposers := [3, 4]
    backend := fun _ _ => []
    window_size := 2
    heuristic := fun c _ => c.map (fun _ => 0)
    next := fun _ => 0 }

/-- An engine with the reference heuristic over a one-record history. -/
def engAct : LeaderReputation :=
  { proposers := [5, 6, 7]
    backend := fun _ _ => [⟨1, 6, [5], 0⟩]
    window_size := 4
    heuristic := fun c h => ActiveInactiveHeuristic.get_weights ⟨100, 1⟩ c h
    next := fun s => s.sum }

/-- An engine whose backend is non-trivial only at target round 5. -/
def engLag1 : LeaderReputation :=
  { proposers := [1, 2]
    backend := fun _ t => if t = 5 then [⟨1, 1, [], 0⟩] else []
    window_size := 3
    heuristic := fun c h => ActiveInactiveHeuristic.get_weights ⟨100, 1⟩ c h
    next := fun s => s.headD 0 }

/-- Like `engLag1` but with a backend that differs everywhere except at
target round 5: electing round 9 (lagged target 5) cannot tell them
apart. -/
def engLag2 : LeaderReputation :=
  { proposers := [1, 2]
    backend := fun _ t => if t = 5 then [⟨1, 1, [], 0⟩] else [⟨9, 2, [], 0⟩]
    window_size := 3
    heuristic := fun c h => ActiveInactiveHeuristic.get_weights ⟨100, 1⟩ c h
    next := fun s => s.headD 0 }

/-- A proposal authored by author 5 for round 9. -/
def blkOk : Block Nat := { author := some 5, round := 9, payload := 42 }

/-- A proposal authored by author 6 for round 9. -/
def blkOther : Block Nat := { author := some 6, round := 9, payload := 42 }

/-- An authorless (NIL) proposal. -/
def blkNil : Block Nat := { author := none, round := 3, payload := 0 }

/-! ## Helper lemmas: wrapping arithmetic and prefix sums -/

lemma foldl_wadd_eq_add (ws : List Nat) :
    ∀ a : Nat, a + ws.sum < U64MOD → ws.foldl wadd a = a + ws.sum := by
  induction ws with
  | nil => intro a _; simp
  | cons w ws ih =>
    intro a h
    simp only [List.sum_cons] at h
    have hw : wadd a w = a + w := by
      simp [wadd, Nat.mod_eq_of_lt (show a + w < U64MOD by omega)]
    simp only [List.foldl_cons, List.sum_cons, hw]
    rw [ih (a + w) (by omega)]
    omega

lemma totalWeight_eq_sum (ws : List Nat) (h : ws.sum < U64MOD) :
    totalWeight ws = ws.sum := by
  simpa [totalWeight] using foldl_wadd_eq_add ws 0 (by simpa using h)

lemma scanl_wadd_eq_scanl_add (ws : List Nat) :
    ∀ a : Nat, a + ws.sum < U64MOD → ws.scanl wadd a = ws.scanl (· + ·) a := by
  induction ws with
  | nil => intro a _; simp
  | cons w ws ih =>
    intro a h
    simp only [List.sum_cons] at h
    have hw : wadd a w = a + w := by
      simp [wadd, Nat.mod_eq_of_lt (show a + w < U64MOD by omega)]
    simp only [List.scanl_cons, hw]
    have hrec : ws.scanl wadd (a + w) = ws.scanl (· + ·) (a + w) :=
      ih (a + w) (by omega)
    rw [hrec]

lemma scanl_add_getD (ws : List Nat) :
    ∀ a i : Nat, i ≤ ws.length → (ws.scanl (· + ·) a).getD i 0 = a + (ws.take i).sum := by
  induction ws with
  | nil =>
    intro a i hi
    have : i = 0 := by simpa using hi
    subst this
    rfl
  | cons w ws ih =>
    intro a i hi
    simp only [List.scanl_cons, List.singleton_append]
    cases i with
    | zero => simp
    | succ j =>
      simp only [List.getD_cons_succ]
      rw [ih (a + w) j (by simpa using hi)]
      simp only [List.take_succ_cons, List.sum_cons]
      omega

lemma scanl_wadd_getD_length (ws : List Nat) :
    ∀ a : Nat, (ws.scanl wadd a).getD ws.length 0 = ws.foldl wadd a := by
  induction ws with
  | nil => intro a; rfl
  | cons w ws ih =>
    intro a
    simp only [List.scanl_cons, List.singleton_append, List.length_cons,
      List.getD_cons_succ, List.foldl_cons]
    exact ih (wadd a w)

lemma length_cumWeights (ws : List Nat) : (cumWeights ws).length = ws.length := by
  simp [cumWeights, List.length_tail, List.length_scanl]

lemma cumWeights_getD (ws : List Nat) (i : Nat) (hi : i < ws.length)
    (hov : ws.sum < U64MOD) :
    (cumWeights ws).getD i 0 = (ws.take (i + 1)).sum := by
  unfold cumWeights
  rw [scanl_wadd_eq_scanl_add ws 0 (by simpa using hov)]
  cases ws with
  | nil => simp at hi
  | cons w ws =>
    simp only [List.scanl_cons, List.singleton_append, List.tail_cons]
    rw [scanl_add_getD ws (0 + w) i (by simpa using Nat.lt_succ_iff.mp (by simpa using hi))]
    simp only [List.take_succ_cons, List.sum_cons]
    omega

lemma cumWeights_last (ws : List Nat) (h : ws ≠ []) :
    (cumWeights ws).getD (ws.length - 1) 0 = totalWeight ws := by
  cases ws with
  | nil => exact absurd rfl h
  | cons w ws =>
    unfold cumWeights totalWeight
    simp only [List.scanl_cons, List.tail_cons, List.length_cons, Nat.add_sub_cancel,
      List.foldl_cons]
    exact scanl_wadd_getD_length ws (wadd 0 w)

lemma sum_take_mono (ws : List Nat) {i j : Nat} (hij : i ≤ j) :
    (ws.take i).sum ≤ (ws.take j).sum := by
  have hj : j = i + (j - i) := by omega
  rw [hj, List.take_add, List.sum_append]
  omega

/-! ## Helper lemmas: the binary-search loop -/

lemma bsLoop_partition (xs : List Nat) (f : Nat → Ordering) (k : Nat)
    (hf : ∀ i, i < xs.length → (f (xs.getD i 0) = Ordering.lt ↔ i < k))
    (hne : ∀ i, i < xs.length → f (xs.getD i 0) ≠ Ordering.eq) :
    ∀ fuel l r : Nat, r - l ≤ fuel → l ≤ k → k ≤ r → r ≤ xs.length →
      bsLoop xs f fuel l r = Sum.inr k := by
  intro fuel
  induction fuel with
  | zero =>
    intro l r hfuel hlk hkr _
    have hlr : ¬ l < r := by omega
    have hl : l = k := by omega
    simp [bsLoop, hl]
  | succ fuel ih =>
    intro l r hfuel hlk hkr hr
    by_cases hlr : l < r
    · have hmidr : l + (r - l) / 2 < r := by omega
      have hmidlen : l + (r - l) / 2 < xs.length := by omega
      simp only [bsLoop, if_pos hlr]
      rcases hcmp : f (xs.getD (l + (r - l) / 2) 0) with _ | _ | _
      · have hmk : l + (r - l) / 2 < k := (hf _ hmidlen).mp hcmp
        exact ih (l + (r - l) / 2 + 1) r (by omega) (by omega) hkr hr
      · exact absurd hcmp (hne _ hmidlen)
      · have hkm : k ≤ l + (r - l) / 2 := by
          by_contra hc
          have hlt : f (xs.getD (l + (r - l) / 2) 0) = Ordering.lt :=
            (hf _ hmidlen).mpr (by omega)
          rw [hcmp] at hlt
          exact absurd hlt (by simp)
        exact ih l (l + (r - l) / 2) (by omega) hlk hkm (by omega)
    · have hl : l = k := by omega
      subst hl
      simp only [bsLoop]
      rw [if_neg hlr]

lemma bsLoop_inr_lt (xs : List Nat) (f : Nat → Ordering)
    (hne : ∀ i, i < xs.length → f (xs.getD i 0) ≠ Ordering.eq)
    (hlast : f (xs.getD (xs.length - 1) 0) = Ordering.gt) :
    ∀ fuel l r : Nat, l ≤ r → r ≤ xs.length → (r = xs.length → l < xs.length) →
      ∃ k, bsLoop xs f fuel l r = Sum.inr k ∧ k < xs.length := by
  intro fuel
  induction fuel with
  | zero =>
    intro l r hlr hr hrl
    refine ⟨l, by simp [bsLoop], ?_⟩
    by_cases hre : r = xs.length
    · exact hrl hre
    · omega
  | succ fuel ih =>
    intro l r hlr hr hrl
    by_cases hlt : l < r
    · have hmidr : l + (r - l) / 2 < r := by omega
      have hmidlen : l + (r - l) / 2 < xs.length := by omega
      simp only [bsLoop, if_pos hlt]
      rcases hcmp : f (xs.getD (l + (r - l) / 2) 0) with _ | _ | _
      · refine ih (l + (r - l) / 2 + 1) r (by omega) hr ?_
        intro hre
        by_contra hc
        have hmid : l + (r - l) / 2 = xs.length - 1 := by omega
        rw [hmid, hlast] at hcmp
        exact absurd hcmp (by simp)
      · exact absurd hcmp (hne _ hmidlen)
      · exact ih l (l + (r - l) / 2) (by omega) (by omega) (by omega)
    · refine ⟨l, by simp [bsLoop, if_neg hlt], ?_⟩
      by_cases hre : r = xs.length
      · exact lt_of_le_of_lt (by omega : l ≤ l) (by omega : l < xs.length)
      · omega

/-! ## Helper lemmas: the weighted selection -/

lemma selCmp_ne_eq (chosen w : Nat) : selCmp chosen w ≠ Ordering.eq := by
  unfold selCmp
  split <;> simp

lemma binarySearch_partition (ws : List Nat) (chosen : Nat)
    (hov : ws.sum < U64MOD) (hch : chosen < ws.sum) :
    ∃ idx, binarySearchBy (cumWeights ws) (selCmp chosen) = Sum.inr idx ∧
      idx < ws.length ∧ chosen < (cumWeights ws).getD idx 0 ∧
      ∀ j, j < idx → (cumWeights ws).getD j 0 ≤ chosen := by
  have hlen0 : 0 < ws.length := by
    cases ws with
    | nil => simp at hch
    | cons w ws => simp
  have htake : ws.take (ws.length - 1 + 1) = ws := by
    have h1 : ws.length - 1 + 1 = ws.length := by omega
    rw [h1, List.take_length]
  have hexist : ∃ i, chosen < (cumWeights ws).getD i 0 := by
    refine ⟨ws.length - 1, ?_⟩
    rw [cumWeights_getD ws (ws.length - 1) (by omega) hov, htake]
    exact hch
  classical
  set k := Nat.find hexist with hk
  have hkspec : chosen < (cumWeights ws).getD k 0 := Nat.find_spec hexist
  have hkmin : ∀ j, j < k → (cumWeights ws).getD j 0 ≤ chosen := by
    intro j hj
    have := Nat.find_min hexist hj
    omega
  have hklen : k < ws.length := by
    have : k ≤ ws.length - 1 := Nat.find_min' hexist (by
      rw [cumWeights_getD ws (ws.length - 1) (by omega) hov, htake]; exact hch)
    omega
  have hf : ∀ i, i < (cumWeights ws).length →
      (selCmp chosen ((cumWeights ws).getD i 0) = Ordering.lt ↔ i < k) := by
    intro i hi
    rw [length_cumWeights] at hi
    constructor
    · intro hsel
      have hle : (cumWeights ws).getD i 0 ≤ chosen := by
        by_contra hc
        unfold selCmp at hsel
        rw [if_neg (by omega)] at hsel
        exact absurd hsel (by simp)
      by_contra hc
      have hki : k ≤ i := by omega
      have hmono : (cumWeights ws).getD k 0 ≤ (cumWeights ws).getD i 0 := by
        rw [cumWeights_getD ws k hklen hov, cumWeights_getD ws i hi hov]
        exact sum_take_mono ws (by omega)
      omega
    · intro hik
      have := hkmin i hik
      unfold selCmp
      rw [if_pos this]
  have hmain := bsLoop_partition (cumWeights ws) (selCmp chosen) k hf
    (fun i _ => selCmp_ne_eq chosen _)
    (cumWeights ws).length 0 (cumWeights ws).length (by omega) (by omega)
    (by rw [length_cumWeights]; omega) (by omega)
  exact ⟨k, hmain, hklen, hkspec, hkmin⟩

lemma binarySearch_lt_length (ws : List Nat) (chosen : Nat)
    (hch : chosen < totalWeight ws) :
    ∃ k, binarySearchBy (cumWeights ws) (selCmp chosen) = Sum.inr k ∧ k < ws.length := by
  have hne : ws ≠ [] := by
    intro h
    subst h
    simp [totalWeight] at hch
  have hlen0 : 0 < ws.length := List.length_pos.mpr hne
  have hlast : selCmp chosen ((cumWeights ws).getD ((cumWeights ws).length - 1) 0)
      = Ordering.gt := by
    rw [length_cumWeights, cumWeights_last ws hne]
    unfold selCmp
    rw [if_neg (by omega)]
  have hmain := bsLoop_inr_lt (cumWeights ws) (selCmp chosen)
    (fun i _ => selCmp_ne_eq chosen _) hlast
    (cumWeights ws).length 0 (cumWeights ws).length (by omega) (by omega)
    (by rw [length_cumWeights]; omega)
  obtain ⟨k, hbs, hklen⟩ := hmain
  rw [length_cumWeights] at hklen
  exact ⟨k, hbs, hklen⟩

/-! ## Helper lemmas: the active/inactive heuristic -/

lemma mem_activeSet_iff (history : List NewBlockEvent) (a : Author) :
    a ∈ activeSet history ↔ ∃ m ∈ history, a = m.proposer ∨ a ∈ m.votes := by
  suffices h : ∀ (hist : List NewBlockEvent) (s : Finset Author),
      (a ∈ hist.foldl (fun s meta => (insert meta.proposer s) ∪ meta.votes.toFinset) s ↔
        a ∈ s ∨ ∃ m ∈ hist, a = m.proposer ∨ a ∈ m.votes) by
    simpa [activeSet] using h history ∅
  intro hist
  induction hist with
  | nil => intro s; simp
  | cons m hist ih =>
    intro s
    simp only [List.foldl_cons, ih, Finset.mem_union, Finset.mem_insert,
      List.mem_toFinset, List.exists_mem_cons_iff, List.mem_cons]
    aesop

/-! ## Helper lemmas: the backend window -/

lemma get_block_metadata_mem {store : List NewBlockEvent} {w : Nat} {t : Round}
    {e : NewBlockEvent} (he : e ∈ get_block_metadata store w t) :
    e.round ≤ t ∧ e ∈ store := by
  unfold get_block_metadata at he
  rw [List.mem_mergeSort] at he
  have h1 : e ∈ (getEventsLatest store (w + 10)).filter (fun e => e.round ≤ t) :=
    List.take_subset _ _ he
  rw [List.mem_filter] at h1
  obtain ⟨h2, h3⟩ := h1
  refine ⟨by simpa using h3, ?_⟩
  unfold getEventsLatest at h2
  have h4 : e ∈ store.reverse := List.take_subset _ _ h2
  exact List.mem_reverse.mp h4

lemma get_block_metadata_length_le (store : List NewBlockEvent) (w : Nat) (t : Round) :
    (get_block_metadata store w t).length ≤ w := by
  unfold get_block_metadata
  rw [List.length_mergeSort]
  exact List.length_take_le _ _

lemma get_block_metadata_sorted (store : List NewBlockEvent) (w : Nat) (t : Round) :
    (get_block_metadata store w t).Pairwise (fun a b => a.round ≤ b.round) := by
  unfold get_block_metadata
  refine List.Pairwise.imp ?_ (List.sorted_mergeSort ?_ ?_
    (((getEventsLatest store (w + 10)).filter (fun e => e.round ≤ t)).take w))
  · intro a b hab
    simpa using hab
  · intro a b c hab hbc
    simp only [decide_eq_true_eq] at hab hbc ⊢
    exact Nat.le_trans hab hbc
  · intro a b
    simpa using Nat.le_total a.round b.round

/-- Stable sorting by round yields a list that is pairwise non-decreasing
in round. -/
lemma mergeSort_round_sorted (l : List NewBlockEvent) :
    (l.mergeSort (fun a b => a.round ≤ b.round)).Pairwise (fun a b => a.round ≤ b.round) := by
  refine List.Pairwise.imp ?_ (List.sorted_mergeSort ?_ ?_ l)
  · intro a b hab
    simpa using hab
  · intro a b c hab hbc
    simp only [decide_eq_true_eq] at hab hbc ⊢
    exact Nat.le_trans hab hbc
  · intro a b
    simpa using Nat.le_total a.round b.round

/-- A list sorted (non-strictly) by round that is a permutation of a
strictly-sorted list equals it: with all rounds distinct the ascending
order is unique. -/
lemma sorted_round_eq_of_perm (o l : List NewBlockEvent)
    (hperm : List.Perm o l)
    (ho : o.Pairwise (fun a b => a.round ≤ b.round))
    (hl : l.Pairwise (fun a b => a.round < b.round)) : o = l := by
  have hne : o.Pairwise (fun a b => a.round ≠ b.round) :=
    (hperm.pairwise_iff (fun h => Ne.symm h)).mpr (hl.imp (fun h => Nat.ne_of_lt h))
  have ho' : o.Pairwise (fun a b => a.round < b.round ∨ a = b) :=
    (ho.and hne).imp (fun h => Or.inl (Nat.lt_of_le_of_ne h.1 h.2))
  have hl' : l.Pairwise (fun a b => a.round < b.round ∨ a = b) :=
    hl.imp (fun h => Or.inl h)
  have hanti : IsAntisymm NewBlockEvent (fun a b => a.round < b.round ∨ a = b) := by
    refine ⟨fun a b hab hba => ?_⟩
    rcases hab with h1 | h1
    · rcases hba with h2 | h2
      · exact absurd h2 (Nat.lt_asymm h1)
      · exact h2.symm
    · exact h1
  exact @List.eq_of_perm_of_sorted _ _ hanti _ _ hperm ho' hl'

/-- Refinement of the backend window: on a store whose committed rounds
strictly increase (the ledger invariant), `get_block_metadata` returns
exactly the records with `round ≤ target_round` among the
`window_size + 10` most recent ones, truncated to the most recent
`window_size`, ascending. -/
lemma get_block_metadata_eq_mostRecentWindow (store : List NewBlockEvent)
    (w : Nat) (t : Round)
    (hs : store.Pairwise (fun a b => a.round < b.round)) :
    get_block_metadata store w t = mostRecentWindow store w t := by
  have hpre : ((getEventsLatest store (w + 10)).filter (fun e => e.round ≤ t)).take w
      = (((store.drop (store.length - (w + 10))).filter (fun e => e.round ≤ t)).drop
          (((store.drop (store.length - (w + 10))).filter
            (fun e => e.round ≤ t)).length - w)).reverse := by
    unfold getEventsLatest
    rw [List.take_reverse, List.filter_reverse, List.take_reverse]
  have hqstrict : ((store.drop (store.length - (w + 10))).filter
      (fun e => e.round ≤ t)).Pairwise (fun a b => a.round < b.round) :=
    (hs.drop).filter _
  show (((getEventsLatest store (w + 10)).filter (fun e => e.round ≤ t)).take w).mergeSort
      (fun a b => a.round ≤ b.round) =
    ((store.drop (store.length - (w + 10))).filter (fun e => e.round ≤ t)).drop
      (((store.drop (store.length - (w + 10))).filter (fun e => e.round ≤ t)).length - w)
  rw [hpre]
  exact sorted_round_eq_of_perm _ _
    ((List.mergeSort_perm _ _).trans (List.reverse_perm _))
    (mergeSort_round_sorted _) hqstrict.drop

/-! ## The claims -/

/-- C1.  Determinism of the election: the result of `get_valid_proposers`
is a function of the candidate list, the backend data, the window size,
the heuristic and the pinned PRNG alone, so two independently constructed
`LeaderReputation` instances sharing the same configuration and backend
data agree on every round (and, the engine being stateless, repeated calls
on one instance trivially return the same result). -/
theorem claim_C1_determinism (e1 e2 : LeaderReputation)
    (hp : e1.proposers = e2.proposers)
    (hb : ∀ w t, e1.backend w t = e2.backend w t)
    (hw : e1.window_size = e2.window_size)
    (hh : ∀ c hist, e1.heuristic c hist = e2.heuristic c hist)
    (hn : ∀ s, e1.next s = e2.next s)
    (round : Round) :
    getValidProposers e1 round = getValidProposers e2 round := by
  unfold getValidProposers electWithWindow
  simp only [hb, hw, hp, hh, hn]

/-- Witness for C1: two separately constructed engines over the same data
elect the same proposer for round 9. -/
theorem claim_C1_witness : getValidProposers engC1a 9 = getValidProposers engC1b 9 :=
  claim_C1_determinism engC1a engC1b rfl (fun _ _ => rfl) rfl (fun _ _ => rfl)
    (fun _ => rfl) 9

/-- C4.  Target-round lag: the election consults the backend only at
`target_round = round - 4` (0 when `round < 4`), and GAP = 4 gives
`targetRound 2 = 0`, `targetRound 4 = 0`, `targetRound 10 = 6`. -/
theorem claim_C4_target_round_lag :
    (∀ (e1 e2 : LeaderReputation) (round : Round),
      e1.proposers = e2.proposers →
      e1.window_size = e2.window_size →
      e1.heuristic = e2.heuristic →
      e1.next = e2.next →
      e1.backend e1.window_size (if round ≥ 4 then round - 4 else 0) =
        e2.backend e2.window_size (if round ≥ 4 then round - 4 else 0) →
      getValidProposers e1 round = getValidProposers e2 round) ∧
    targetRound 2 = 0 ∧ targetRound 4 = 0 ∧ targetRound 10 = 6 := by
  refine ⟨?_, by decide, by decide, by decide⟩
  intro e1 e2 round hp hw hh hn hb
  unfold getValidProposers electWithWindow
  rw [show targetRound round = (if round ≥ 4 then round - 4 else 0) from rfl]
  simp only [hb, hp, hh, hn]

/-- Witness for C4: two engines whose backends agree only at target round
5 elect the same proposer for round 9 = 5 + GAP. -/
theorem claim_C4_witness : getValidProposers engLag1 9 = getValidProposers engLag2 9 :=
  claim_C4_target_round_lag.1 engLag1 engLag2 9 rfl rfl rfl rfl (by decide)

/-- C5.  Fatal-path behaviour: a weight vector whose length differs from
the candidate list (the `assert_eq!`), or whose total weight is zero (the
`% 0` panic), makes `get_valid_proposers` abort; it never returns a
candidate. -/
theorem claim_C5_fatal_path (e : LeaderReputation) (round : Round)
    (h : (e.heuristic e.proposers (e.backend e.window_size (targetRound round))).length ≠
          e.proposers.length ∨
         (e.heuristic e.proposers (e.backend e.window_size (targetRound round))).sum = 0) :
    getValidProposers e round = none := by
  unfold getValidProposers electWithWindow
  rcases h with h | h
  · rw [if_neg h]
  · by_cases hlen : (e.heuristic e.proposers
        (e.backend e.window_size (targetRound round))).length = e.proposers.length
    · rw [if_pos hlen]
      have htot : totalWeight (e.heuristic e.proposers
          (e.backend e.window_size (targetRound round))) = 0 := by
        rw [totalWeight_eq_sum _ (by rw [h]; norm_num [U64MOD])]
        exact h
      rw [if_pos htot]
    · rw [if_neg hlen]

/-- Witness for C5: a length-mismatched heuristic and an all-zero
heuristic both abort the election. -/
theorem claim_C5_witness :
    getValidProposers engBadLen 7 = none ∧ getValidProposers engBadZero 7 = none :=
  ⟨claim_C5_fatal_path engBadLen 7 (Or.inl (by decide)),
   claim_C5_fatal_path engBadZero 7 (Or.inr (by decide))⟩

/-- C6.  The active/inactive heuristic assigns `active_weight` to exactly
the candidates appearing in some history record as proposer or voter, and
`inactive_weight` to the rest, index-aligned to the candidate list; on
candidates [A,B,C] = [0,1,2] with history [{proposer A, voters {B}},
{proposer B, voters {A}}] and weights 100/1 it yields [100, 100, 1]. -/
theorem claim_C6_active_inactive :
    (∀ (h : ActiveInactiveHeuristic) (candidates : List Author)
        (history : List NewBlockEvent),
      h.get_weights candidates history =
        candidates.map (fun a =>
          if ∃ m ∈ history, a = m.proposer ∨ a ∈ m.votes then h.active_weight
          else h.inactive_weight)) ∧
    ActiveInactiveHeuristic.get_weights ⟨100, 1⟩ [0, 1, 2]
      [⟨1, 0, [1], 0⟩, ⟨2, 1, [0], 0⟩] = [100, 100, 1] := by
  constructor
  · intro h candidates history
    unfold ActiveInactiveHeuristic.get_weights
    apply List.map_congr_left
    intro a _
    exact if_congr (mem_activeSet_iff history a) rfl rfl
  · decide

/-- C7.  Authorization consistency: when the election for round `round`
returns the singleton `[p]`, `is_valid_proposer` answers `Some(author)`
exactly for `author = p` and `None` for every other author (including
authors outside the candidate list). -/
theorem claim_C7_authorization (e : LeaderReputation) (author p : Author)
    (round : Round) (h : getValidProposers e round = some [p]) :
    isValidProposer e author round =
      some (if author = p then some author else none) := by
  unfold isValidProposer
  rw [h]
  by_cases hap : author = p
  · subst hap
    simp
  · simp [hap]

/-- Witness for C7: for `engAct` round 9 elects author 5; author 5 is
confirmed and author 6 (a candidate, but not elected) is rejected. -/
theorem claim_C7_witness :
    isValidProposer engAct 5 9 = some (if 5 = 5 then some 5 else none) ∧
    isValidProposer engAct 6 9 = some (if 6 = 5 then some 6 else none) :=
  ⟨claim_C7_authorization engAct 5 5 9 (by decide),
   claim_C7_authorization engAct 6 5 9 (by decide)⟩

/-- C8.  Proposal filtering: a proposal that carries an author passes
through `process_proposal` unchanged exactly when its author is the valid
proposer of its round, and is discarded otherwise. -/
theorem claim_C8_proposal_filtering {T : Type} (e : LeaderReputation)
    (proposal : Block T) (a p : Author)
    (ha : proposal.author = some a)
    (h : getValidProposers e proposal.round = some [p]) :
    processProposal e proposal = some (if a = p then some proposal else none) := by
  unfold processProposal
  rw [ha, h]
  by_cases hap : a = p
  · subst hap
    simp
  · simp [hap]

/-- Witness for C8: against `engAct` (round 9 elects author 5), the
proposal by author 5 passes through unchanged and the proposal by author 6
is discarded. -/
theorem claim_C8_witness :
    processProposal engAct blkOk = some (if 5 = 5 then some blkOk else none) ∧
    processProposal engAct blkOther = some (if 6 = 5 then some blkOther else none) :=
  ⟨claim_C8_proposal_filtering engAct blkOk 5 5 rfl (by decide),
   claim_C8_proposal_filtering engAct blkOther 6 5 rfl (by decide)⟩

/-- C9.  Singleton result within candidates: when the heuristic's weight
vector matches the candidate-list length and the computed total weight
(`total_weight`, the final cumulative sum) is positive,
`get_valid_proposers` returns exactly one author, an element of the
candidate list (the binary-search index is strictly below the list length,
so the final indexing cannot fail). -/
theorem claim_C9_singleton (e : LeaderReputation) (round : Round)
    (hlen : (e.heuristic e.proposers
        (e.backend e.window_size (targetRound round))).length = e.proposers.length)
    (hpos : 0 < totalWeight (e.heuristic e.proposers
        (e.backend e.window_size (targetRound round)))) :
    ∃ a, getValidProposers e round = some [a] ∧ a ∈ e.proposers := by
  unfold getValidProposers electWithWindow
  set weights := e.heuristic e.proposers (e.backend e.window_size (targetRound round))
    with hwdef
  rw [if_pos hlen]
  rw [if_neg (by omega)]
  have hch : e.next (roundBytes round) % totalWeight weights < totalWeight weights :=
    Nat.mod_lt _ hpos
  obtain ⟨k, hbs, hklen⟩ := binarySearch_lt_length weights _ hch
  simp only [hbs]
  rw [hlen] at hklen
  rw [List.get?_eq_get hklen]
  exact ⟨e.proposers.get ⟨k, hklen⟩, rfl, List.get_mem _ _ _⟩

/-- Witness for C9: `engAct` satisfies both preconditions at round 9 and
elects a member of its candidate list. -/
theorem claim_C9_witness :
    ∃ a, getValidProposers engAct 9 = some [a] ∧ a ∈ engAct.proposers :=
  claim_C9_singleton engAct 9 (by decide) (by decide)

/-- C10.  Authorless proposals are rejected outright: `process_proposal`
returns `None` for a proposal without an author, for every engine and
round — even engines whose election would abort. -/
theorem claim_C10_authorless {T : Type} (e : LeaderReputation)
    (proposal : Block T) (h : proposal.author = none) :
    processProposal e proposal = some none := by
  unfold processProposal
  rw [h]

/-- Witness for C10: the authorless proposal is rejected even by
`engBadLen`, whose election aborts on every round. -/
theorem claim_C10_witness : processProposal engBadLen blkNil = some none :=
  claim_C10_authorless engBadLen blkNil rfl

/-- Counterexample to C3 as stated.  The claim quantifies over every
weight vector with positive total, but the cumulative accumulation is
`u64` arithmetic: for weights [2^63, 2^63, 5] (total 2^64 + 5 > 0, the
computed `total_weight` wraps to 5) and draw 3 ∈ [0, total), the code's
binary search selects index 2 even though the cumulative value at index 0
(2^63) already exceeds the draw — the selected index is not the smallest
`i` with `cum[i] > chosen`. -/
theorem claim_C3_counterexample :
    binarySearchBy (cumWeights [2 ^ 63, 2 ^ 63, 5]) (selCmp 3) = Sum.inr 2 ∧
    3 < (cumWeights [2 ^ 63, 2 ^ 63, 5]).getD 0 0 := by
  decide

/-- C3 (amended: weight vectors whose true sum fits in a `u64`, so the
cumulative accumulation does not wrap).  For every such weight vector with
positive total and every draw `chosen ∈ [0, total)`, the selected index is
the smallest `i` with `cum[i] > chosen`; a cumulative value equal to the
draw never selects its index.  The second conjunct states this on the
engine itself: under the same no-overflow and positivity conditions
`get_valid_proposers` returns `candidates[idx]` for exactly that smallest
index, with the draw `next(round_bytes) % total`.  Concretely, for weights
[10, 20, 30] (cumulative [10, 30, 60]): draw 9 selects index 0, draw 10
selects index 1 (`cum[0] = 10` is not strictly greater), draw 59 selects
index 2. -/
theorem claim_C3_tiebreak :
    (∀ (weights : List Nat) (chosen : Nat),
        weights.sum < U64MOD → chosen < weights.sum →
        ∃ idx, binarySearchBy (cumWeights weights) (selCmp chosen) = Sum.inr idx ∧
          idx < weights.length ∧
          chosen < (cumWeights weights).getD idx 0 ∧
          ∀ j, j < idx → (cumWeights weights).getD j 0 ≤ chosen) ∧
    (∀ (e : LeaderReputation) (round : Round),
        (e.heuristic e.proposers (e.backend e.window_size (targetRound round))).length =
          e.proposers.length →
        (e.heuristic e.proposers (e.backend e.window_size (targetRound round))).sum <
          U64MOD →
        0 < (e.heuristic e.proposers (e.backend e.window_size (targetRound round))).sum →
        ∃ idx, ∃ hidx : idx < e.proposers.length,
          getValidProposers e round = some [e.proposers.get ⟨idx, hidx⟩] ∧
          e.next (roundBytes round) %
              (e.heuristic e.proposers (e.backend e.window_size (targetRound round))).sum <
            (cumWeights (e.heuristic e.proposers
              (e.backend e.window_size (targetRound round)))).getD idx 0 ∧
          ∀ j, j < idx →
            (cumWeights (e.heuristic e.proposers
              (e.backend e.window_size (targetRound round)))).getD j 0 ≤
              e.next (roundBytes round) %
                (e.heuristic e.proposers
                  (e.backend e.window_size (targetRound round))).sum) ∧
    cumWeights [10, 20, 30] = [10, 30, 60] ∧
    binarySearchBy (cumWeights [10, 20, 30]) (selCmp 9) = Sum.inr 0 ∧
    binarySearchBy (cumWeights [10, 20, 30]) (selCmp 10) = Sum.inr 1 ∧
    binarySearchBy (cumWeights [10, 20, 30]) (selCmp 59) = Sum.inr 2 := by
  refine ⟨binarySearch_partition, ?_, by decide, by decide, by decide, by decide⟩
  intro e round hlen hov hpos
  unfold getValidProposers electWithWindow
  set weights := e.heuristic e.proposers (e.backend e.window_size (targetRound round))
    with hwdef
  rw [if_pos hlen]
  have htw : totalWeight weights = weights.sum := totalWeight_eq_sum _ hov
  rw [if_neg (show ¬ totalWeight weights = 0 by omega)]
  have hch : e.next (roundBytes round) % weights.sum < weights.sum := Nat.mod_lt _ hpos
  obtain ⟨idx, hbs, hidxlen, hgt, hmin⟩ := binarySearch_partition weights _ hov hch
  simp only [htw, hbs]
  have hidx2 : idx < e.proposers.length := hlen ▸ hidxlen
  rw [List.get?_eq_get hidx2]
  exact ⟨idx, hidx2, rfl, hgt, hmin⟩

/-- Witness for C3: the general tie-break statement applied to weights
[10, 20, 30] with draw 10, and the engine-level statement applied to
`engAct` at round 9 (weights [100, 100, 1], draw 9 % 201 = 9, electing
index 0). -/
theorem claim_C3_witness :
    (∃ idx, binarySearchBy (cumWeights [10, 20, 30]) (selCmp 10) = Sum.inr idx ∧
      idx < 3 ∧ 10 < (cumWeights [10, 20, 30]).getD idx 0 ∧
      ∀ j, j < idx → (cumWeights [10, 20, 30]).getD j 0 ≤ 10) ∧
    (∃ idx, ∃ hidx : idx < engAct.proposers.length,
      getValidProposers engAct 9 = some [engAct.proposers.get ⟨idx, hidx⟩] ∧
      engAct.next (roundBytes 9) %
          (engAct.heuristic engAct.proposers
            (engAct.backend engAct.window_size (targetRound 9))).sum <
        (cumWeights (engAct.heuristic engAct.proposers
          (engAct.backend engAct.window_size (targetRound 9)))).getD idx 0 ∧
      ∀ j, j < idx →
        (cumWeights (engAct.heuristic engAct.proposers
          (engAct.backend engAct.window_size (targetRound 9)))).getD j 0 ≤
          engAct.next (roundBytes 9) %
            (engAct.heuristic engAct.proposers
              (engAct.backend engAct.window_size (targetRound 9))).sum) :=
  ⟨claim_C3_tiebreak.1 [10, 20, 30] 10 (by decide) (by decide),
   claim_C3_tiebreak.2.1 engAct 9 (by decide) (by decide) (by decide)⟩

/-- Counterexample to C2 as stated.  With committed rounds 1..50,
`window_size = 20`, `target_round = 30`, the backend fetches only the
`window_size + 10 = 30` most recent records (rounds 21..50); after
filtering `round ≤ 30` just 10 records remain, so the returned window is
rounds 21..30, not the claimed rounds 11..30 (its length is 10, not
20). -/
theorem claim_C2_counterexample :
    (get_block_metadata store50 20 30).map NewBlockEvent.round ≠
      [11, 12, 13, 14, 15, 16, 17, 18, 19, 20,
       21, 22, 23, 24, 25, 26, 27, 28, 29, 30] := by
  have hlen : (get_block_metadata store50 20 30).length = 10 := by
    rw [show get_block_metadata store50 20 30 =
        (((getEventsLatest store50 (20 + 10)).filter
          (fun e => e.round ≤ 30)).take 20).mergeSort
          (fun a b => a.round ≤ b.round) from rfl]
    rw [List.length_mergeSort]
    decide
  intro hcontra
  have h20 := congrArg List.length hcontra
  rw [List.length_map, hlen] at h20
  exact absurd h20 (by decide)

/-- C2 (amended: the window is drawn from the `window_size + 10` most
recent committed records, the fixed over-fetch margin).  For every store
whose committed rounds strictly increase (the ledger invariant) and every
query, `get_block_metadata` returns exactly the records with
`round ≤ target_round` among the `window_size + 10` most recent committed
records, truncated to the most recent `window_size`, in ascending order
(`mostRecentWindow`, both completeness and soundness); moreover,
unconditionally, every returned record has `round ≤ target_round` and
comes from the store, at most `window_size` records are returned, and they
are sorted ascending by round; for committed rounds 1..50,
`window_size = 20`, `target_round = 30`, the returned window is exactly
rounds 21..30 ascending. -/
theorem claim_C2_window :
    (∀ (store : List NewBlockEvent) (w : Nat) (t : Round),
        store.Pairwise (fun a b => a.round < b.round) →
        get_block_metadata store w t = mostRecentWindow store w t) ∧
    (∀ (store : List NewBlockEvent) (w : Nat) (t : Round) (e : NewBlockEvent),
        e ∈ get_block_metadata store w t → e.round ≤ t ∧ e ∈ store) ∧
    (∀ (store : List NewBlockEvent) (w : Nat) (t : Round),
        (get_block_metadata store w t).length ≤ w) ∧
    (∀ (store : List NewBlockEvent) (w : Nat) (t : Round),
        (get_block_metadata store w t).Pairwise (fun a b => a.round ≤ b.round)) ∧
    (get_block_metadata store50 20 30).map NewBlockEvent.round =
      [21, 22, 23, 24, 25, 26, 27, 28, 29, 30] := by
  refine ⟨get_block_metadata_eq_mostRecentWindow,
    fun store w t e he => get_block_metadata_mem he,
    get_block_metadata_length_le, get_block_metadata_sorted, ?_⟩
  have h1 : get_block_metadata store50 20 30 =
      win30pre.mergeSort (fun a b => a.round ≤ b.round) := by
    rw [show get_block_metadata store50 20 30 =
        (((getEventsLatest store50 (20 + 10)).filter
          (fun e => e.round ≤ 30)).take 20).mergeSort
          (fun a b => a.round ≤ b.round) from rfl]
    rw [show ((getEventsLatest store50 (20 + 10)).filter
        (fun e => e.round ≤ 30)).take 20 = win30pre from by decide]
  rw [h1]
  have hp1 : List.Perm
      ((win30pre.mergeSort (fun a b => a.round ≤ b.round)).map NewBlockEvent.round)
      (win30pre.map NewBlockEvent.round) :=
    (List.mergeSort_perm win30pre _).map NewBlockEvent.round
  have hmap : win30pre.map NewBlockEvent.round =
      [30, 29, 28, 27, 26, 25, 24, 23, 22, 21] := by decide
  have hp2 : List.Perm ([30, 29, 28, 27, 26, 25, 24, 23, 22, 21] : List Nat)
      [21, 22, 23, 24, 25, 26, 27, 28, 29, 30] := by decide
  have hs1 : List.Sorted (fun x y : Nat => x ≤ y)
      ((win30pre.mergeSort (fun a b => a.round ≤ b.round)).map NewBlockEvent.round) :=
    List.pairwise_map.mpr (mergeSort_round_sorted win30pre)
  have hs2 : List.Sorted (fun x y : Nat => x ≤ y)
      [21, 22, 23, 24, 25, 26, 27, 28, 29, 30] := by decide
  exact List.eq_of_perm_of_sorted ((hmap ▸ hp1).trans hp2) hs1 hs2

/-- Witness for C2: `store50` has strictly increasing rounds, so the
window equals the spec-side `mostRecentWindow`; and the record for round
21 is in the window, hence its round is ≤ 30 and it belongs to the
store. -/
theorem claim_C2_witness :
    get_block_metadata store50 20 30 = mostRecentWindow store50 20 30 ∧
    ((⟨21, 0, [], 0⟩ : NewBlockEvent).round ≤ 30 ∧
      (⟨21, 0, [], 0⟩ : NewBlockEvent) ∈ store50) :=
  ⟨claim_C2_window.1 store50 20 30 (by decide),
   claim_C2_window.2.1 store50 20 30 ⟨21, 0, [], 0⟩ (by
    rw [show get_block_metadata store50 20 30 =
        (((getEventsLatest store50 (20 + 10)).filter
          (fun e => e.round ≤ 30)).take 20).mergeSort
          (fun a b => a.round ≤ b.round) from rfl]
    rw [List.mem_mergeSort]
    decide)⟩
